import Mathlib

/-!
Verification of the MusicMood playlist-curation core
(`app/tools/curator_tools.py` and its direct caller
`app/services/curator_simple.py`).

The Python track dictionaries are embedded as a `Track` structure holding
the fields the curation core reads.  Artist entries keep their format: a
dict entry `{"name": ...}` (possibly missing the key) or a bare string,
the format the catalog collaborator produces; the scorers' `artist.get`
raises `AttributeError` on a bare string, landing in their `except`
fallbacks, which is modelled explicitly.  Numeric audio descriptors are
`Option ℚ` (absent keys use the source's `.get` defaults).  Python float
arithmetic is idealised as exact rational arithmetic, and `round(x, 2)`
as decimal rounding half-to-even on rationals.
-/

namespace MusicMood

/-- An entry of a track's `artists` list: either a dict entry
`{"name": ...}` (with a possibly-missing name key) or a bare string name,
the format `spotify_tools.py` produces. -/
inductive Artist where
  | dict (name : Option String)
  | str (name : String)
  deriving DecidableEq, Repr

/-- A candidate track record: the fields of the Python track dict that the
curation core reads.  Descriptors are optional, matching `.get` defaults in
the source. -/
structure Track where
  id : String
  name : String
  artists : List Artist
  genres : List String
  energy : Option ℚ
  valence : Option ℚ
  tempo : Option ℚ
  popularity : Option ℚ
  deriving DecidableEq, Repr

/-- Mood data consumed by the scorer (`primary_mood` plus the fields read
but not used by the score: `energy_level`, `mood_tags`). -/
structure MoodData where
  primary_mood : String
  energy_level : ℚ
  mood_tags : List String
  deriving DecidableEq, Repr

/-- User preference context (`favorite_artists`, `favorite_genres`,
`recent_artists`). -/
structure UserContext where
  favorite_artists : List String
  favorite_genres : List String
  recent_artists : List String
  deriving DecidableEq, Repr

/-- `track.get("energy", 0.5)` -/
def energyD (t : Track) : ℚ := t.energy.getD (1/2)

/-- `track.get("valence", 0.5)` -/
def valenceD (t : Track) : ℚ := t.valence.getD (1/2)

/-- `track.get("tempo", 100)` -/
def tempoD (t : Track) : ℚ := t.tempo.getD 100

/-- `track.get("popularity", 50)` -/
def popularityD (t : Track) : ℚ := t.popularity.getD 50

/-- Python's `str.lower()`, embedded as per-character lowercasing of the
string's characters (adequate for the ASCII names involved). -/
def pyLower (s : String) : String := ⟨s.data.map Char.toLower⟩

/-- The `mood_requirements` table of `_calculate_audio_feature_score`,
keyed by the lower-cased primary mood; unknown moods fall back to the
`"neutral"` profile.  Returns `(energy, valence, tempo)`. -/
def moodRequirements (m : String) : ℚ × ℚ × ℚ :=
  if m = "happy" then (7/10, 8/10, 120)
  else if m = "excited" then (9/10, 8/10, 130)
  else if m = "energetic" then (9/10, 7/10, 130)
  else if m = "calm" then (3/10, 1/2, 80)
  else if m = "relaxed" then (3/10, 6/10, 75)
  else if m = "focused" then (1/2, 1/2, 100)
  else if m = "sad" then (3/10, 2/10, 70)
  else if m = "melancholy" then (3/10, 3/10, 75)
  else if m = "angry" then (9/10, 3/10, 140)
  else (1/2, 1/2, 100)

/-- `_calculate_audio_feature_score`: per-feature distances to the mood's
target profile, converted to similarities and averaged, clamped to
[0, 100]. -/
def audioFeatureScore (t : Track) (mood : MoodData) : ℚ :=
  let target := moodRequirements (pyLower mood.primary_mood)
  let energyDistance := |energyD t - target.1|
  let valenceDistance := |valenceD t - target.2.1|
  let tempoDistance := |tempoD t - target.2.2| / 200
  let energyScore := (1 - energyDistance) * 100
  let valenceScore := (1 - valenceDistance) * 100
  let tempoScore := (1 - min tempoDistance 1) * 100
  max 0 (min 100 ((energyScore + valenceScore + tempoScore) / 3))

/-- The favorite-artist loop of `_calculate_preference_score`: scan the
entries in order; a dict entry whose `.get("name", "")` matches a
lower-cased favorite stops the loop with the bonus; a bare-string entry
raises `AttributeError` at `artist.get`, aborting the whole scorer into
its `except` fallback. -/
def prefArtistLoop (favsLower : List String) : List Artist → Except Unit Bool
  | [] => .ok false
  | .dict n :: rest =>
    if favsLower.contains (pyLower (n.getD "")) then .ok true
    else prefArtistLoop favsLower rest
  | .str _ :: _ => .error ()

/-- `_calculate_preference_score`: base 50, +30 when a track artist matches
a favorite artist case-insensitively, +20 for a favorite genre match,
clamped to [0, 100]; when the artist loop raises (bare-string entry), the
`except` handler returns the flat 50.0 instead.  (The source guards each
bonus on both lists being non-empty; the guards are kept here.) -/
def preferenceScore (t : Track) (u : UserContext) : ℚ :=
  let artistPhase : Except Unit ℚ :=
    if u.favorite_artists ≠ [] ∧ t.artists ≠ [] then
      match prefArtistLoop (u.favorite_artists.map pyLower) t.artists with
      | .error e => .error e
      | .ok hit => .ok (if hit then 50 + 30 else 50)
    else .ok 50
  match artistPhase with
  | .error _ => 50
  | .ok s1 =>
    let s2 : ℚ :=
      if u.favorite_genres ≠ [] ∧ t.genres ≠ [] ∧
          t.genres.any (fun g => (u.favorite_genres.map pyLower).contains (pyLower g)) then
        s1 + 20
      else s1
    max 0 (min 100 s2)

/-- `_calculate_popularity_score`: piecewise curve on the track's
popularity. -/
def popularityScore (t : Track) : ℚ :=
  let p := popularityD t
  if 60 ≤ p ∧ p ≤ 80 then 100
  else if p > 80 then 90
  else if p < 40 then 70
  else 85

/-- The recent-artist loop of `_calculate_novelty_score`: a dict entry
whose `.get("name", "")` matches a lower-cased recent artist stops with
`is_new_artist = False`; a bare-string entry raises `AttributeError`,
aborting into the `except` fallback. -/
def novArtistLoop (recentsLower : List String) : List Artist → Except Unit Bool
  | [] => .ok true
  | .dict n :: rest =>
    if recentsLower.contains (pyLower (n.getD "")) then .ok false
    else novArtistLoop recentsLower rest
  | .str _ :: _ => .error ()

/-- `_calculate_novelty_score`: base 70, +30 when the track has artists,
the recent-artist list is non-empty, and the loop finds every entry new;
clamped to [0, 100]; when the loop raises (bare-string entry), the
`except` handler returns the flat 70.0 instead. -/
def noveltyScore (t : Track) (u : UserContext) : ℚ :=
  if t.artists ≠ [] ∧ u.recent_artists ≠ [] then
    match novArtistLoop (u.recent_artists.map pyLower) t.artists with
    | .error _ => 70
    | .ok isNew => max 0 (min 100 (if isNew then 70 + 30 else (70 : ℚ)))
  else max 0 (min 100 70)

/-- Decimal rounding half-to-even at 2 decimal places, modelling Python's
`round(x, 2)` on the idealised rational value. -/
def roundHalfEven (q : ℚ) : ℤ :=
  let f := ⌊q⌋
  let r := q - f
  if r < 1/2 then f
  else if 1/2 < r then f + 1
  else if f % 2 = 0 then f else f + 1

/-- `round(x, 2)` as a rational operation. -/
def round2 (q : ℚ) : ℚ := (roundHalfEven (q * 100) : ℚ) / 100

/-- The unrounded weighted sum computed in `rank_tracks_by_relevance`:
`audio*0.40 + preference*0.30 + popularity*0.20 + novelty*0.10`. -/
def totalScore (t : Track) (mood : MoodData) (u : UserContext) : ℚ :=
  audioFeatureScore t mood * (4/10) + preferenceScore t u * (3/10) +
    popularityScore t * (2/10) + noveltyScore t u * (1/10)

/-- A track together with the score fields `rank_tracks_by_relevance`
attaches (`relevance_score` and the rounded `score_breakdown`). -/
structure ScoredTrack where
  track : Track
  relevance_score : ℚ
  audio_match : ℚ
  user_preference : ℚ
  popularity : ℚ
  novelty : ℚ
  deriving DecidableEq, Repr

/-- The per-track scoring step of `rank_tracks_by_relevance`. -/
def scoreTrack (mood : MoodData) (u : UserContext) (t : Track) : ScoredTrack :=
  { track := t
    relevance_score := round2 (totalScore t mood u)
    audio_match := round2 (audioFeatureScore t mood)
    user_preference := round2 (preferenceScore t u)
    popularity := round2 (popularityScore t)
    novelty := round2 (noveltyScore t u) }

/-- `rank_tracks_by_relevance` scoring and sorting: score every track, then
stable-sort descending by `relevance_score` (Python's stable `list.sort`
with `reverse=True`). -/
def rankTracks (tracks : List Track) (mood : MoodData) (u : UserContext) : List ScoredTrack :=
  (tracks.map (scoreTrack mood u)).mergeSort
    (fun a b => decide (b.relevance_score ≤ a.relevance_score))

/-- `rank_tracks_by_relevance` including its error path: on an empty input
the post-sort logging indexes `ranked_tracks[0]`, raising `IndexError`,
which the surrounding handler converts into an error payload. -/
def rankTracksChecked (tracks : List Track) (mood : MoodData) (u : UserContext) :
    Except String (List ScoredTrack) :=
  let ranked := rankTracks tracks mood u
  if ranked = [] then .error "list index out of range" else .ok ranked

/-- The name `_apply_diversity_constraints` reads from an artist entry:
dict entries via `.get("name", "Unknown")`, bare strings via `str(...)`. -/
def Artist.leadName : Artist → String
  | .dict n => n.getD "Unknown"
  | .str s => s

/-- The lead artist of a track, as read by `_apply_diversity_constraints`
(`artists[0]`, format-normalised); `none` when the artist list is empty. -/
def leadArtist (t : Track) : Option String := t.artists.head?.map Artist.leadName

/-- Lookup in the per-artist running count (`artist_count.get(name, 0)`);
the count map is embedded as an association list queried front-first. -/
def getCount (m : List (String × Nat)) (a : String) : Nat := ((m.lookup a).getD 0)

/-- The strict pass of `_apply_diversity_constraints`: walk the ranked list
in order, stopping once `k` tracks are selected; a track with a lead artist
is admitted only when that artist's running count is below 2 (incrementing
it on admission); a track with no artist info is admitted without touching
the counts.  (The `tempo_ranges` tally in the source is logging-only and
does not affect the result.) -/
def strictGo (k : Nat) : List Track → List Track → List (String × Nat) →
    List Track × List (String × Nat)
  | [], sel, cnt => (sel, cnt)
  | t :: rest, sel, cnt =>
    if k ≤ sel.length then (sel, cnt)
    else
      match leadArtist t with
      | some a =>
        if 2 ≤ getCount cnt a then strictGo k rest sel cnt
        else strictGo k rest (sel ++ [t]) ((a, getCount cnt a + 1) :: cnt)
      | none => strictGo k rest (sel ++ [t]) cnt

/-- The strict pass started from the empty selection and empty counts. -/
def strictPass (tracks : List Track) (k : Nat) : List Track × List (String × Nat) :=
  strictGo k tracks [] []

/-- The relaxation pass of `_apply_diversity_constraints`: walk the
original ranked list again, admitting any track not already selected
(membership by record equality, as Python's `in` on dicts), until `k`
tracks are selected. -/
def relaxGo (k : Nat) : List Track → List Track → List Track
  | [], sel => sel
  | t :: rest, sel =>
    if k ≤ sel.length then sel
    else if t ∈ sel then relaxGo k rest sel
    else relaxGo k rest (sel ++ [t])

/-- `_apply_diversity_constraints`: strict pass, then the relaxation pass
when the strict pass selected fewer than `k` tracks. -/
def applyDiversityConstraints (tracks : List Track) (k : Nat) : List Track :=
  let sel := (strictPass tracks k).1
  if sel.length < k then relaxGo k tracks sel else sel

/-- The scan for the remaining track with energy closest to `e`
(`best_distance` updated only on strict decrease, so the first minimum is
kept), seeded with a current best. -/
def findBestAux (e : ℚ) (best : Track) : List Track → Track
  | [] => best
  | t :: rest =>
    if |energyD t - e| < |energyD best - e| then findBestAux e t rest
    else findBestAux e best rest

/-- The greedy loop of `_optimize_energy_flow`: while tracks remain and
fewer than `n` have been placed, append the remaining track with energy
closest to the last-placed track's energy and remove it from the pool.
(`remaining.remove(best)` deletes the first record equal to `best`; the
fuel argument mirrors the loop's termination by pool exhaustion.) -/
def energyFlowGo (n : Nat) : Nat → ℚ → List Track → List Track → List Track
  | 0, _, _, optimized => optimized
  | fuel + 1, cur, remaining, optimized =>
    match remaining with
    | [] => optimized
    | t :: rest =>
      if optimized.length < n then
        let best := findBestAux cur t rest
        energyFlowGo n fuel (energyD best) ((t :: rest).erase best)
          (optimized ++ [best])
      else optimized

/-- `_optimize_energy_flow`: sort ascending by energy, seed the output with
the element at index `int(n * 0.6)` (which equals `⌊3n/5⌋` for the exact
decimal 0.6), then run the greedy closest-energy loop over the rest. -/
def optimizeEnergyFlow (tracks : List Track) : List Track :=
  if tracks = [] then tracks
  else
    let sorted := tracks.mergeSort (fun a b => decide (energyD a ≤ energyD b))
    let n := tracks.length
    let i := 3 * n / 5
    let seed := sorted.getD i (Track.mk "" "" [] [] none none none none)
    energyFlowGo n n (energyD seed) (sorted.eraseIdx i) [seed]

/-- `optimize_diversity` including its error path: an empty ranked list
returns the `"No tracks provided"` error payload; otherwise the selector
and the energy sequencer run in sequence.  (The diversity-metrics record
attached to the successful payload is omitted here; it is not needed by
the claims about this function.) -/
def optimizeDiversityChecked (tracks : List Track) (k : Nat) :
    Except String (List Track × Nat) :=
  if tracks = [] then .error "No tracks provided"
  else
    let selected := applyDiversityConstraints tracks k
    let playlist := optimizeEnergyFlow selected
    .ok (playlist, playlist.length)

/-- One emission step of the Energy Sequencer as the specification words
it: repeatedly emit the remaining pool element whose energy is closest to
the last emitted energy (ties to the first found), until the pool is
empty.  The fuel equals the pool length, so the loop always drains the
pool. -/
def sequencerSpecChain : Nat → ℚ → List Track → List Track
  | 0, _, _ => []
  | fuel + 1, cur, pool =>
    match pool with
    | [] => []
    | t :: rest =>
      let best := findBestAux cur t rest
      best :: sequencerSpecChain fuel (energyD best) ((t :: rest).erase best)

/-- The Energy Sequencer as the specification describes it: sort the
subset ascending by energy, seed the output with the item at the 60th
percentile position of the sorted order, then run the closest-energy
chain until the pool is empty. -/
def energySequencerSpec (tracks : List Track) : List Track :=
  if tracks = [] then []
  else
    let sorted := tracks.mergeSort (fun a b => decide (energyD a ≤ energyD b))
    let n := tracks.length
    let i := 3 * n / 5
    let seed := sorted.getD i (Track.mk "" "" [] [] none none none none)
    let pool := sorted.eraseIdx i
    seed :: sequencerSpecChain pool.length (energyD seed) pool

/-- The composite diversity score of `_calculate_diversity_metrics`
(lines computing `artist_score`, `tempo_score`, `energy_score` and their
weighted sum), as a function of the unique-artist count, the playlist
length, and the two standard deviations computed upstream. -/
def diversityScoreFormula (uniqueArtists n tempoStd energyStd : ℚ) : ℚ :=
  let artistScore := min 100 (uniqueArtists / n * 100 * (3/2))
  let tempoScore := min 100 (tempoStd * 3)
  let energyScore := min 100 (energyStd * 300)
  artistScore * (4/10) + tempoScore * (3/10) + energyScore * (3/10)

/-- A concrete track by artist `"X"`, used in concrete instances. -/
def tX : Track := ⟨"x", "Track X", [.str "X"], [], none, none, none, none⟩

/-- A concrete track with an empty artist list. -/
def tNoArtist : Track := ⟨"n", "Track N", [], [], none, none, none, none⟩

/-- A concrete track by artist `"A"`. -/
def tA : Track := ⟨"a", "Track A", [.str "A"], [], none, none, none, none⟩

/-- A concrete track by artist `"B"`. -/
def tB : Track := ⟨"b", "Track B", [.str "B"], [], none, none, none, none⟩

/-- A concrete track whose tempo 101 makes the weighted relevance sum a
repeating decimal. -/
def tTempo101 : Track := ⟨"t", "Track T", [], [], none, none, some 101, none⟩

/-- The neutral mood target. -/
def moodNeutral : MoodData := ⟨"neutral", 5, []⟩

/-- The happy mood target. -/
def moodHappy : MoodData := ⟨"happy", 5, []⟩

/-- The empty preference context. -/
def emptyContext : UserContext := ⟨[], [], []⟩

/-- A context whose recent-artist list is `["B"]`. -/
def recentB : UserContext := ⟨[], [], ["B"]⟩

/-- A track whose single artist is the dict entry `{"name": "A"}`. -/
def tDictA : Track := ⟨"da", "Track DA", [.dict (some "A")], [], none, none, none, none⟩

/-- A track whose single artist is the bare string `"A"` (the
`spotify_tools.py` format). -/
def tStrA : Track := ⟨"sa", "Track SA", [.str "A"], [], none, none, none, none⟩

/-- An artist entry the scorers can read without raising (dict format)
whose name is absent, case-insensitively, from the lower-cased list
`ls`. -/
def Artist.isNewFor (ls : List String) : Artist → Bool
  | .dict n => !ls.contains (pyLower (n.getD ""))
  | .str _ => false

theorem getCount_cons (a b : String) (n : Nat) (cnt : List (String × Nat)) :
    getCount ((b, n) :: cnt) a = if a = b then n else getCount cnt a := by
  simp only [getCount, List.lookup_cons]
  by_cases h : a = b
  · simp [h]
  · simp [h, beq_false_of_ne h]

theorem strictGo_sel_append (k : Nat) :
    ∀ (l sel : List Track) (cnt : List (String × Nat)),
      ∃ s : List Track, (strictGo k l sel cnt).1 = sel ++ s ∧ s.Sublist l := by
  intro l
  induction l with
  | nil => intro sel cnt; exact ⟨[], by simp [strictGo], List.nil_sublist _⟩
  | cons t rest ih =>
    intro sel cnt
    by_cases hk : k ≤ sel.length
    · exact ⟨[], by simp [strictGo, hk], List.nil_sublist _⟩
    · cases ha : leadArtist t with
      | some a =>
        by_cases h2 : 2 ≤ getCount cnt a
        · obtain ⟨s, hs, hsub⟩ := ih sel cnt
          refine ⟨s, ?_, hsub.cons t⟩
          simpa [strictGo, hk, ha, h2] using hs
        · obtain ⟨s, hs, hsub⟩ := ih (sel ++ [t]) ((a, getCount cnt a + 1) :: cnt)
          refine ⟨t :: s, ?_, hsub.cons₂ t⟩
          simp only [strictGo, hk, ha, h2, if_false]
          simpa using hs
      | none =>
        obtain ⟨s, hs, hsub⟩ := ih (sel ++ [t]) cnt
        refine ⟨t :: s, ?_, hsub.cons₂ t⟩
        simp only [strictGo, hk, ha, if_false]
        simpa using hs

theorem strictGo_length_le (k : Nat) :
    ∀ (l sel : List Track) (cnt : List (String × Nat)),
      sel.length ≤ k → (strictGo k l sel cnt).1.length ≤ k := by
  intro l
  induction l with
  | nil => intro sel cnt h; simpa [strictGo] using h
  | cons t rest ih =>
    intro sel cnt h
    by_cases hk : k ≤ sel.length
    · simpa [strictGo, hk] using h
    · cases ha : leadArtist t with
      | some a =>
        by_cases h2 : 2 ≤ getCount cnt a
        · simpa [strictGo, hk, ha, h2] using ih sel cnt h
        · have h' : (sel ++ [t]).length ≤ k := by
            simp only [List.length_append, List.length_singleton]
            omega
          simpa [strictGo, hk, ha, h2] using
            ih (sel ++ [t]) ((a, getCount cnt a + 1) :: cnt) h'
      | none =>
        have h' : (sel ++ [t]).length ≤ k := by
          simp only [List.length_append, List.length_singleton]
          omega
        simpa [strictGo, hk, ha] using ih (sel ++ [t]) cnt h'

theorem strictPass_length_le (tracks : List Track) (k : Nat) :
    (strictPass tracks k).1.length ≤ k :=
  strictGo_length_le k tracks [] [] (by simp)

theorem strictPass_sublist (tracks : List Track) (k : Nat) :
    (strictPass tracks k).1.Sublist tracks := by
  obtain ⟨s, hs, hsub⟩ := strictGo_sel_append k tracks [] []
  simpa [strictPass, hs]

theorem relaxGo_length (k : Nat) :
    ∀ (l sel : List Track), sel.length ≤ k → l.Nodup →
      (relaxGo k l sel).length =
        min k (sel.length + l.countP (fun t => !decide (t ∈ sel))) := by
  intro l
  induction l with
  | nil => intro sel h _; simp [relaxGo]; omega
  | cons t rest ih =>
    intro sel h hnd
    have hndr : rest.Nodup := hnd.of_cons
    have htm : t ∉ rest := (List.nodup_cons.mp hnd).1
    by_cases hk : k ≤ sel.length
    · have hek : sel.length = k := le_antisymm h hk
      have hcnt : (t :: rest).countP (fun x => !decide (x ∈ sel)) + sel.length ≥ k := by omega
      simp only [relaxGo, hk, if_true]
      omega
    · by_cases hm : t ∈ sel
      · have hrec := ih sel h hndr
        have hpt : (fun x => !decide (x ∈ sel)) t = false := by simp [hm]
        simp only [relaxGo, hk, if_false, hm, if_true, List.countP_cons, hpt]
        simpa using hrec
      · have hlen : (sel ++ [t]).length ≤ k := by
          simp only [List.length_append, List.length_singleton]
          omega
        have hrec := ih (sel ++ [t]) hlen hndr
        have hcount : rest.countP (fun x => !decide (x ∈ sel ++ [t])) =
            rest.countP (fun x => !decide (x ∈ sel)) := by
          apply List.countP_congr
          intro x hx
          have hxt : x ≠ t := fun hxt => htm (hxt ▸ hx)
          simp [List.mem_append, hxt]
        have hpt : (fun x => !decide (x ∈ sel)) t = true := by simp [hm]
        simp only [relaxGo, hk, if_false, hm, if_false, List.countP_cons, hpt]
        rw [hrec, hcount]
        simp [List.length_append, hm]
        omega

theorem countP_mem_of_sublist :
    ∀ {s l : List Track}, s.Sublist l → l.Nodup →
      l.countP (fun x => decide (x ∈ s)) = s.length := by
  intro s l h
  induction h with
  | slnil => simp
  | @cons l₁ l₂ a h ih =>
    intro hnd
    have ha : a ∉ l₂ := (List.nodup_cons.mp hnd).1
    have has : a ∉ l₁ := fun hm => ha (h.subset hm)
    have hpa : (fun x => decide (x ∈ l₁)) a = false := by simp [has]
    simp only [List.countP_cons, hpa]
    simpa using ih (List.nodup_cons.mp hnd).2
  | @cons₂ l₁ l₂ a h ih =>
    intro hnd
    have ha : a ∉ l₂ := (List.nodup_cons.mp hnd).1
    have hcong : l₂.countP (fun x => decide (x ∈ a :: l₁)) =
        l₂.countP (fun x => decide (x ∈ l₁)) := by
      apply List.countP_congr
      intro x hx
      have hxa : x ≠ a := fun hxa => ha (hxa ▸ hx)
      simp [hxa]
    have hrec := ih (List.nodup_cons.mp hnd).2
    simp only [List.countP_cons, List.length_cons, hcong, hrec]
    simp

/-- C1 (amended): when the ranked candidates are pairwise distinct, the
Diversity Selector (strict pass plus relaxation) returns exactly
`min k |candidates|` tracks. -/
theorem selector_length_eq_min (tracks : List Track) (k : Nat) (h : tracks.Nodup) :
    (applyDiversityConstraints tracks k).length = min k tracks.length := by
  have hsub := strictPass_sublist tracks k
  have hlen := strictPass_length_le tracks k
  have hle := hsub.length_le
  simp only [applyDiversityConstraints]
  by_cases hlt : (strictPass tracks k).1.length < k
  · simp only [hlt, if_true]
    rw [relaxGo_length k tracks _ (le_of_lt hlt) h]
    have hsplit := List.length_eq_countP_add_countP
      (fun x => decide (x ∈ (strictPass tracks k).1)) tracks
    have hc := countP_mem_of_sublist hsub h
    have hcongr : tracks.countP (fun a => decide ¬(decide (a ∈ (strictPass tracks k).1)) = true) =
        tracks.countP (fun x => !decide (x ∈ (strictPass tracks k).1)) := by
      apply List.countP_congr
      intro x _
      by_cases hx : x ∈ (strictPass tracks k).1 <;> simp [hx]
    omega
  · simp only [hlt, if_false]
    omega

/-- C1 witness: on two distinct candidates with `k = 5` the selector
returns `min 5 2 = 2` tracks. -/
theorem selector_length_eq_min_witness :
    (applyDiversityConstraints [tA, tB] 5).length = min 5 ([tA, tB] : List Track).length :=
  selector_length_eq_min [tA, tB] 5 (by decide)

/-- C1 counterexample: with three duplicate candidates by one artist and
`k = 3`, the strict pass admits two and the relaxation pass cannot add
the third (membership is by record equality), so the selector returns 2
tracks, not `min 3 3 = 3`. -/
theorem selector_length_counterexample :
    (applyDiversityConstraints [tX, tX, tX] 3).length ≠
      min 3 ([tX, tX, tX] : List Track).length := by
  decide

theorem strictGo_count_le (k : Nat) :
    ∀ (l sel : List Track) (cnt : List (String × Nat)),
      (∀ a, sel.countP (fun x => decide (leadArtist x = some a)) = getCount cnt a) →
      (∀ a, getCount cnt a ≤ 2) →
      ∀ a, (strictGo k l sel cnt).1.countP (fun x => decide (leadArtist x = some a)) ≤ 2 := by
  intro l
  induction l with
  | nil =>
    intro sel cnt h1 h2 a
    simpa [strictGo, h1 a] using h2 a
  | cons t rest ih =>
    intro sel cnt h1 h2 a
    by_cases hk : k ≤ sel.length
    · simpa [strictGo, hk, h1 a] using h2 a
    · cases ha : leadArtist t with
      | some b =>
        by_cases h2b : 2 ≤ getCount cnt b
        · simpa [strictGo, hk, ha, h2b] using ih sel cnt h1 h2 a
        · have h1' : ∀ c, (sel ++ [t]).countP (fun x => decide (leadArtist x = some c)) =
              getCount ((b, getCount cnt b + 1) :: cnt) c := by
            intro c
            rw [List.countP_append, getCount_cons]
            by_cases hcb : c = b
            · subst hcb
              simp [List.countP_cons, ha, h1 c]
            · have hz : ([t].countP (fun x => decide (leadArtist x = some c))) = 0 := by
                simp [List.countP_cons, ha, Ne.symm hcb]
              simp [hz, h1 c, hcb]
          have h2' : ∀ c, getCount ((b, getCount cnt b + 1) :: cnt) c ≤ 2 := by
            intro c
            rw [getCount_cons]
            by_cases hcb : c = b
            · simp only [hcb, if_true]
              omega
            · simp only [hcb, if_false]
              exact h2 c
          simpa [strictGo, hk, ha, h2b] using ih (sel ++ [t]) _ h1' h2' a
      | none =>
        have h1' : ∀ c, (sel ++ [t]).countP (fun x => decide (leadArtist x = some c)) =
            getCount cnt c := by
          intro c
          rw [List.countP_append]
          simp [List.countP_cons, ha, h1 c]
        simpa [strictGo, hk, ha] using ih (sel ++ [t]) cnt h1' h2 a

/-- C5: in the strict pass no lead artist contributes more than 2 tracks
to the output; a track with a lead artist whose running count has reached
2 is skipped and otherwise admitted with the count incremented; and the
relaxation pass changes nothing when the strict pass admitted at least
`k` tracks. -/
theorem strict_pass_artist_cap (tracks : List Track) (k : Nat) (a : String)
    (t : Track) (rest sel : List Track) (cnt : List (String × Nat)) :
    ((strictPass tracks k).1.countP (fun x => decide (leadArtist x = some a)) ≤ 2)
    ∧ (sel.length < k → leadArtist t = some a → 2 ≤ getCount cnt a →
        strictGo k (t :: rest) sel cnt = strictGo k rest sel cnt)
    ∧ (sel.length < k → leadArtist t = some a → getCount cnt a < 2 →
        strictGo k (t :: rest) sel cnt =
          strictGo k rest (sel ++ [t]) ((a, getCount cnt a + 1) :: cnt))
    ∧ (k ≤ (strictPass tracks k).1.length →
        applyDiversityConstraints tracks k = (strictPass tracks k).1) := by
  refine ⟨?_, ?_, ?_, ?_⟩
  · exact strictGo_count_le k tracks [] [] (by simp [getCount]) (by simp [getCount]) a
  · intro hlt ha h2
    simp [strictGo, Nat.not_le.mpr hlt, ha, h2]
  · intro hlt ha h2
    simp [strictGo, Nat.not_le.mpr hlt, ha, Nat.not_le.mpr h2]
  · intro hge
    simp [applyDiversityConstraints, Nat.not_lt.mpr hge]

/-- C5 witness: concrete instances of the cap, the skip step, the admit
step, and the no-relaxation case. -/
theorem strict_pass_artist_cap_witness :
    ((strictPass [tX, tX, tX] 3).1.countP (fun x => decide (leadArtist x = some "X")) ≤ 2)
    ∧ strictGo 3 [tX] [tX] [("X", 2)] = strictGo 3 [] [tX] [("X", 2)]
    ∧ strictGo 3 [tX] [] [] = strictGo 3 [] ([] ++ [tX]) [("X", getCount [] "X" + 1)]
    ∧ applyDiversityConstraints [tX, tX, tX] 2 = (strictPass [tX, tX, tX] 2).1 :=
  ⟨(strict_pass_artist_cap [tX, tX, tX] 3 "X" tX [] [] []).1,
   (strict_pass_artist_cap [tX, tX, tX] 3 "X" tX [] [tX] [("X", 2)]).2.1
     (by decide) (by decide) (by decide),
   (strict_pass_artist_cap [tX, tX, tX] 3 "X" tX [] [] []).2.2.1
     (by decide) (by decide) (by decide),
   (strict_pass_artist_cap [tX, tX, tX] 2 "X" tX [] [] []).2.2.2 (by decide)⟩

/-- C10: a track with an empty artist list is admitted by the strict pass
unconditionally while the target count is unmet, without touching the
artist counts; three copies of an artist-less track are all admitted
strictly (exceeding the 2-per-artist cap) with no relaxation triggered. -/
theorem strict_pass_artistless (k : Nat) (t : Track) (rest sel : List Track)
    (cnt : List (String × Nat)) :
    (t.artists = [] → sel.length < k →
      strictGo k (t :: rest) sel cnt = strictGo k rest (sel ++ [t]) cnt)
    ∧ (strictPass [tNoArtist, tNoArtist, tNoArtist] 3).1 =
        [tNoArtist, tNoArtist, tNoArtist]
    ∧ (strictPass [tNoArtist, tNoArtist, tNoArtist] 3).2 = []
    ∧ applyDiversityConstraints [tNoArtist, tNoArtist, tNoArtist] 3 =
        [tNoArtist, tNoArtist, tNoArtist] := by
  refine ⟨?_, by decide, by decide, by decide⟩
  intro ha hlt
  have hla : leadArtist t = none := by simp [leadArtist, ha]
  simp [strictGo, Nat.not_le.mpr hlt, hla]

/-- C10 witness: the unconditional admission step at a concrete
artist-less track. -/
theorem strict_pass_artistless_witness :
    strictGo 3 [tNoArtist] [] [] = strictGo 3 [] ([] ++ [tNoArtist]) [] :=
  (strict_pass_artistless 3 tNoArtist [] [] []).1 (by decide) (by decide)

theorem findBestAux_mem (e : ℚ) :
    ∀ (l : List Track) (b : Track), findBestAux e b l ∈ b :: l := by
  intro l
  induction l with
  | nil => intro b; simp [findBestAux]
  | cons t rest ih =>
    intro b
    simp only [findBestAux]
    by_cases h : |energyD t - e| < |energyD b - e|
    · rw [if_pos h]
      have hm := ih t
      simp only [List.mem_cons] at hm ⊢
      tauto
    · rw [if_neg h]
      have hm := ih b
      simp only [List.mem_cons] at hm ⊢
      tauto

theorem energyFlowGo_perm (n : Nat) :
    ∀ (fuel : Nat) (remaining optimized : List Track) (cur : ℚ),
      remaining.length ≤ fuel → optimized.length + remaining.length = n →
      (energyFlowGo n fuel cur remaining optimized).Perm (optimized ++ remaining) := by
  intro fuel
  induction fuel with
  | zero =>
    intro rem opt cur h1 h2
    have hr : rem = [] := List.eq_nil_of_length_eq_zero (Nat.le_zero.mp h1)
    simp [energyFlowGo, hr]
  | succ fuel ih =>
    intro rem opt cur h1 h2
    match rem with
    | [] => simp [energyFlowGo]
    | t :: rest =>
      have hguard : opt.length < n := by
        simp only [List.length_cons] at h2
        omega
      simp only [energyFlowGo]
      rw [if_pos hguard]
      have hmem : findBestAux cur t rest ∈ t :: rest := findBestAux_mem cur rest t
      have hperm : (t :: rest).Perm
          (findBestAux cur t rest :: (t :: rest).erase (findBestAux cur t rest)) :=
        List.perm_cons_erase hmem
      have hlen : ((t :: rest).erase (findBestAux cur t rest)).length = rest.length := by
        rw [List.length_erase_of_mem hmem]
        simp
      have h1' : ((t :: rest).erase (findBestAux cur t rest)).length ≤ fuel := by
        rw [hlen]
        simp only [List.length_cons] at h1
        omega
      have h2' : (opt ++ [findBestAux cur t rest]).length +
          ((t :: rest).erase (findBestAux cur t rest)).length = n := by
        rw [hlen]
        simp only [List.length_append, List.length_singleton, List.length_cons, List.length_nil] at h2 ⊢
        omega
      have hrec := ih ((t :: rest).erase (findBestAux cur t rest))
        (opt ++ [findBestAux cur t rest]) (energyD (findBestAux cur t rest)) h1' h2'
      refine hrec.trans ?_
      have he : (opt ++ [findBestAux cur t rest]) ++ (t :: rest).erase (findBestAux cur t rest) =
          opt ++ (findBestAux cur t rest :: (t :: rest).erase (findBestAux cur t rest)) := by
        simp
      rw [he]
      exact hperm.symm.append_left opt

theorem optimizeEnergyFlow_perm (tracks : List Track) :
    (optimizeEnergyFlow tracks).Perm tracks := by
  by_cases h : tracks = []
  · simp [optimizeEnergyFlow, h]
  · have hn : 0 < tracks.length := List.length_pos.mpr h
    simp only [optimizeEnergyFlow, h, if_false]
    set d := Track.mk "" "" [] [] none none none none with hd
    set sorted := tracks.mergeSort (fun a b => decide (energyD a ≤ energyD b)) with hsorted
    have hslen : sorted.length = tracks.length := List.length_mergeSort tracks
    set i := 3 * tracks.length / 5 with hi_def
    have hi : i < sorted.length := by
      rw [hslen, hi_def, Nat.div_lt_iff_lt_mul (by norm_num)]
      omega
    have hdrop : sorted.drop i = sorted.getD i d :: sorted.drop (i + 1) := by
      rw [List.drop_eq_getElem_cons hi]
      congr 1
      rw [List.getD_eq_getElem?_getD, List.getElem?_eq_getElem hi, Option.getD_some]
    have hsplit : sorted = sorted.take i ++ sorted.getD i d :: sorted.drop (i + 1) := by
      conv_lhs => rw [← List.take_append_drop i sorted]
      rw [hdrop]
    have hperm2 : sorted.Perm (sorted.getD i d :: sorted.eraseIdx i) := by
      rw [List.eraseIdx_eq_take_drop_succ]
      have hm := @List.perm_middle _ (sorted.getD i d)
        (sorted.take i) (sorted.drop (i + 1))
      rw [← hsplit] at hm
      exact hm
    have hel : (sorted.eraseIdx i).length = tracks.length - 1 := by
      rw [List.length_eraseIdx, if_pos hi, hslen]
    have hgo := energyFlowGo_perm tracks.length tracks.length (sorted.eraseIdx i)
      [sorted.getD i d] (energyD (sorted.getD i d))
      (by rw [hel]; omega) (by rw [hel]; simp; omega)
    refine hgo.trans ?_
    rw [List.singleton_append]
    exact hperm2.symm.trans (List.mergeSort_perm tracks _)

/-- C4: the Energy Sequencer's output contains exactly the same multiset
of track ids as its input. -/
theorem sequencer_id_multiset (tracks : List Track) :
    ((optimizeEnergyFlow tracks).map Track.id).Perm (tracks.map Track.id) :=
  (optimizeEnergyFlow_perm tracks).map Track.id

theorem energyFlowGo_eq_chain (n : Nat) :
    ∀ (fuel : Nat) (remaining optimized : List Track) (cur : ℚ),
      remaining.length ≤ fuel → optimized.length + remaining.length = n →
      energyFlowGo n fuel cur remaining optimized =
        optimized ++ sequencerSpecChain remaining.length cur remaining := by
  intro fuel
  induction fuel with
  | zero =>
    intro rem opt cur h1 h2
    have hr : rem = [] := List.eq_nil_of_length_eq_zero (Nat.le_zero.mp h1)
    simp [energyFlowGo, sequencerSpecChain, hr]
  | succ fuel ih =>
    intro rem opt cur h1 h2
    match rem with
    | [] => simp [energyFlowGo, sequencerSpecChain]
    | t :: rest =>
      have hguard : opt.length < n := by
        simp only [List.length_cons] at h2
        omega
      have hmem : findBestAux cur t rest ∈ t :: rest := findBestAux_mem cur rest t
      have hlen : ((t :: rest).erase (findBestAux cur t rest)).length = rest.length := by
        rw [List.length_erase_of_mem hmem]
        simp
      simp only [energyFlowGo]
      rw [if_pos hguard]
      rw [ih ((t :: rest).erase (findBestAux cur t rest)) (opt ++ [findBestAux cur t rest])
        (energyD (findBestAux cur t rest))
        (by rw [hlen]; simp only [List.length_cons] at h1; omega)
        (by rw [hlen]; simp only [List.length_append, List.length_singleton,
              List.length_cons, List.length_nil] at h2 ⊢; omega)]
      simp only [List.length_cons, sequencerSpecChain, hlen]
      simp [List.append_assoc]

/-- C8: for every non-empty input the coded sequencer coincides with the
specification's description of it: sort ascending by energy, seed with
the 60th-percentile element, then repeatedly emit the remaining element
with energy closest to the last emitted one (first-found ties) until the
pool is empty. -/
theorem sequencer_matches_description (tracks : List Track) (h : tracks ≠ []) :
    optimizeEnergyFlow tracks = energySequencerSpec tracks := by
  have hn : 0 < tracks.length := List.length_pos.mpr h
  simp only [optimizeEnergyFlow, energySequencerSpec, h, if_false]
  set d := Track.mk "" "" [] [] none none none none with hd
  set sorted := tracks.mergeSort (fun a b => decide (energyD a ≤ energyD b)) with hsorted
  have hslen : sorted.length = tracks.length := List.length_mergeSort tracks
  set i := 3 * tracks.length / 5 with hi_def
  have hi : i < sorted.length := by
    rw [hslen, hi_def, Nat.div_lt_iff_lt_mul (by norm_num)]
    omega
  have hel : (sorted.eraseIdx i).length = tracks.length - 1 := by
    rw [List.length_eraseIdx, if_pos hi, hslen]
  rw [energyFlowGo_eq_chain tracks.length tracks.length (sorted.eraseIdx i)
    [sorted.getD i d] (energyD (sorted.getD i d))
    (by rw [hel]; omega) (by rw [hel]; simp; omega)]
  rw [List.singleton_append]

/-- C8 witness: the coincidence at a concrete non-empty input. -/
theorem sequencer_matches_description_witness :
    optimizeEnergyFlow [tA, tB] = energySequencerSpec [tA, tB] :=
  sequencer_matches_description [tA, tB] (by simp)

/-- C6 (amended): for every non-empty input the Relevance Scorer succeeds
and returns exactly the scored input tracks, sorted descending by
`relevance_score`, with a stable sort: for each score value, the tracks
carrying that score appear in their original input order.  (On an empty
input the scorer returns an error payload instead of the sorted list.) -/
theorem rank_tracks_contract (tracks : List Track) (mood : MoodData) (u : UserContext)
    (hne : tracks ≠ []) :
    rankTracksChecked tracks mood u = .ok (rankTracks tracks mood u)
    ∧ (rankTracks tracks mood u).Perm (tracks.map (scoreTrack mood u))
    ∧ (rankTracks tracks mood u).Pairwise
        (fun a b => b.relevance_score ≤ a.relevance_score)
    ∧ ∀ q : ℚ,
        (rankTracks tracks mood u).filter (fun s => decide (s.relevance_score = q)) =
          (tracks.map (scoreTrack mood u)).filter (fun s => decide (s.relevance_score = q)) := by
  unfold rankTracksChecked rankTracks
  set l := tracks.map (scoreTrack mood u) with hl
  set le := fun a b : ScoredTrack => decide (b.relevance_score ≤ a.relevance_score) with hle
  have htrans : ∀ a b c, le a b = true → le b c = true → le a c = true := by
    intro a b c hab hbc
    simp only [hle, decide_eq_true_eq] at hab hbc ⊢
    exact le_trans hbc hab
  have htotal : ∀ a b, (le a b || le b a) = true := by
    intro a b
    simp only [hle, Bool.or_eq_true, decide_eq_true_eq]
    exact le_total _ _
  have hraw : l.mergeSort le ≠ [] := by
    intro hcon
    apply hne
    have hzero := congrArg List.length hcon
    rw [List.length_mergeSort, hl, List.length_map] at hzero
    simp only [List.length_nil] at hzero
    exact List.eq_nil_of_length_eq_zero hzero
  refine ⟨by simp [hraw], List.mergeSort_perm _ _, ?_, ?_⟩
  · have hs := List.sorted_mergeSort htrans htotal l
    exact hs.imp (fun h => by simpa [hle] using h)
  · intro q
    set p := fun s : ScoredTrack => decide (s.relevance_score = q) with hp
    have hcs : (l.filter p).Pairwise (fun a b => le a b = true) := by
      apply List.pairwise_of_forall_mem_list
      intro a ha b hb
      have ha' := List.of_mem_filter ha
      have hb' := List.of_mem_filter hb
      simp only [hp, decide_eq_true_eq] at ha' hb'
      simp only [hle, decide_eq_true_eq, ha', hb']
      exact le_refl q
    have hsub : List.Sublist (l.filter p) (l.mergeSort le) :=
      List.sublist_mergeSort htrans htotal hcs (List.filter_sublist l)
    have hsub2 : List.Sublist (l.filter p) ((l.mergeSort le).filter p) := by
      have hff := List.Sublist.filter p hsub
      rwa [List.filter_filter, (by funext a; exact Bool.and_self (p a) :
        (fun a => p a && p a) = p)] at hff
    have hperm : ((l.mergeSort le).filter p).Perm (l.filter p) :=
      (List.mergeSort_perm l le).filter p
    exact (hsub2.eq_of_length hperm.length_eq.symm).symm

/-- C6 witness: the contract at a concrete one-track input. -/
theorem rank_tracks_contract_witness :
    rankTracksChecked [tA] moodNeutral emptyContext =
      .ok (rankTracks [tA] moodNeutral emptyContext)
    ∧ (rankTracks [tA] moodNeutral emptyContext).Perm
        ([tA].map (scoreTrack moodNeutral emptyContext)) :=
  ⟨(rank_tracks_contract [tA] moodNeutral emptyContext (by simp)).1,
   (rank_tracks_contract [tA] moodNeutral emptyContext (by simp)).2.1⟩

/-- C6 counterexample: on the empty input the scorer does not return the
sorted (empty) scored list: the post-sort logging indexes
`ranked_tracks[0]`, raising `IndexError`, and the handler returns an
error payload instead. -/
theorem rank_tracks_empty_counterexample :
    rankTracksChecked [] moodNeutral emptyContext ≠ .ok []
    ∧ rankTracksChecked [] moodNeutral emptyContext = .error "list index out of range" := by
  have he : rankTracksChecked [] moodNeutral emptyContext =
      .error "list index out of range" := by
    simp [rankTracksChecked, rankTracks]
  refine ⟨?_, he⟩
  rw [he]
  intro hcon
  exact Except.noConfusion hcon

theorem clamp_unit_bounds (x : ℚ) : 0 ≤ max 0 (min 100 x) ∧ max 0 (min 100 x) ≤ 100 :=
  ⟨le_max_left _ _, max_le (by norm_num) (min_le_left _ _)⟩

theorem audioFeatureScore_bounds (t : Track) (mood : MoodData) :
    0 ≤ audioFeatureScore t mood ∧ audioFeatureScore t mood ≤ 100 := by
  simp only [audioFeatureScore]
  exact clamp_unit_bounds _

theorem preferenceScore_bounds (t : Track) (u : UserContext) :
    0 ≤ preferenceScore t u ∧ preferenceScore t u ≤ 100 := by
  simp only [preferenceScore]
  split
  · norm_num
  · exact clamp_unit_bounds _

theorem noveltyScore_bounds (t : Track) (u : UserContext) :
    0 ≤ noveltyScore t u ∧ noveltyScore t u ≤ 100 := by
  simp only [noveltyScore]
  split
  · split
    · norm_num
    · exact clamp_unit_bounds _
  · exact clamp_unit_bounds _

theorem popularityScore_bounds (t : Track) :
    0 ≤ popularityScore t ∧ popularityScore t ≤ 100 := by
  simp only [popularityScore]
  split_ifs <;> norm_num

theorem totalScore_bounds (t : Track) (mood : MoodData) (u : UserContext) :
    0 ≤ totalScore t mood u ∧ totalScore t mood u ≤ 100 := by
  obtain ⟨a0, a1⟩ := audioFeatureScore_bounds t mood
  obtain ⟨p0, p1⟩ := preferenceScore_bounds t u
  obtain ⟨q0, q1⟩ := popularityScore_bounds t
  obtain ⟨n0, n1⟩ := noveltyScore_bounds t u
  unfold totalScore
  constructor <;> linarith

theorem roundHalfEven_nonneg {q : ℚ} (h : 0 ≤ q) : 0 ≤ roundHalfEven q := by
  simp only [roundHalfEven]
  have hf : (0 : ℤ) ≤ ⌊q⌋ := Int.floor_nonneg.mpr h
  split_ifs <;> omega

theorem roundHalfEven_le_ten_thousand {q : ℚ} (h : q ≤ 10000) :
    roundHalfEven q ≤ 10000 := by
  simp only [roundHalfEven]
  have hfl : (⌊q⌋ : ℚ) ≤ q := Int.floor_le q
  have hf : ⌊q⌋ ≤ 10000 := by
    have hc : (⌊q⌋ : ℚ) ≤ 10000 := le_trans hfl h
    exact_mod_cast hc
  split_ifs with h1 h2 h3
  · exact hf
  · have hc : (⌊q⌋ : ℚ) < 10000 := by linarith
    have hz : ⌊q⌋ < 10000 := by exact_mod_cast hc
    omega
  · exact hf
  · have hr : q - ⌊q⌋ = 1/2 := le_antisymm (not_lt.mp h2) (not_lt.mp h1)
    have hc : (⌊q⌋ : ℚ) < 10000 := by linarith
    have hz : ⌊q⌋ < 10000 := by exact_mod_cast hc
    omega

theorem round2_nonneg {q : ℚ} (h : 0 ≤ q) : 0 ≤ round2 q := by
  unfold round2
  apply div_nonneg _ (by norm_num)
  exact_mod_cast roundHalfEven_nonneg (mul_nonneg h (by norm_num))

theorem round2_le_hundred {q : ℚ} (h : q ≤ 100) : round2 q ≤ 100 := by
  unfold round2
  rw [div_le_iff₀ (by norm_num : (0 : ℚ) < 100)]
  have hz : roundHalfEven (q * 100) ≤ 10000 :=
    roundHalfEven_le_ten_thousand (by linarith)
  have hc : ((roundHalfEven (q * 100) : ℤ) : ℚ) ≤ 10000 := by exact_mod_cast hz
  linarith

/-- C3 (amended): the stored relevance score equals the weighted
component sum rounded to two decimals, and always lies in [0, 100]. -/
theorem relevance_score_formula_bounds (t : Track) (mood : MoodData) (u : UserContext) :
    (scoreTrack mood u t).relevance_score = round2 (totalScore t mood u)
    ∧ 0 ≤ (scoreTrack mood u t).relevance_score
    ∧ (scoreTrack mood u t).relevance_score ≤ 100 := by
  obtain ⟨h0, h1⟩ := totalScore_bounds t mood u
  exact ⟨rfl, round2_nonneg h0, round2_le_hundred h1⟩

/-- C3 counterexample: at tempo 101 under the neutral mood the weighted
sum is 1184/15 = 78.9333…, while the stored score is the rounded 78.93,
so the stored relevance score does not equal the weighted sum. -/
theorem relevance_weighted_sum_counterexample :
    (scoreTrack moodNeutral emptyContext tTempo101).relevance_score ≠
      totalScore tTempo101 moodNeutral emptyContext := by
  have hpl : pyLower "neutral" = "neutral" := rfl
  have hmr : moodRequirements "neutral" = (1/2, 1/2, 100) := rfl
  have h1 : totalScore tTempo101 moodNeutral emptyContext = 1184 / 15 := by
    norm_num [totalScore, audioFeatureScore, preferenceScore, popularityScore,
      noveltyScore, energyD, valenceD, tempoD, popularityD,
      tTempo101, moodNeutral, emptyContext, hpl, hmr, min_def, max_def]
  have h2 : (scoreTrack moodNeutral emptyContext tTempo101).relevance_score =
      round2 (totalScore tTempo101 moodNeutral emptyContext) := rfl
  have h3 : round2 (1184 / 15) = 7893 / 100 := by
    norm_num [round2, roundHalfEven]
  rw [h2, h1, h3]
  norm_num

theorem novArtistLoop_ok_true (ls : List String) :
    ∀ l : List Artist,
      novArtistLoop ls l = .ok true ↔ (l.all (Artist.isNewFor ls)) = true := by
  intro l
  induction l with
  | nil => simp [novArtistLoop]
  | cons a rest ih =>
    cases a with
    | dict n =>
      by_cases hm : pyLower (n.getD "") ∈ ls
      · simp [novArtistLoop, hm, Artist.isNewFor]
      · simp [novArtistLoop, hm, Artist.isNewFor, ih]
    | str s => simp [novArtistLoop, Artist.isNewFor]

/-- C7 (amended): novelty is 100 exactly when the track's artist list and
the recent-artist list are non-empty, every artist entry is a readable
dict-format entry, and no entry's name appears case-insensitively in the
recent list; otherwise — a name match, a bare-string entry (the scorer
raises at `artist.get` and lands in its 70.0 fallback), or either list
empty — novelty is 70. -/
theorem novelty_score_cases (t : Track) (u : UserContext) :
    (t.artists ≠ [] → u.recent_artists ≠ [] →
      (t.artists.all (Artist.isNewFor (u.recent_artists.map pyLower))) = true →
      noveltyScore t u = 100)
    ∧ ((t.artists.any
        (fun a => !Artist.isNewFor (u.recent_artists.map pyLower) a)) = true →
      noveltyScore t u = 70)
    ∧ (t.artists = [] ∨ u.recent_artists = [] → noveltyScore t u = 70) := by
  refine ⟨?_, ?_, ?_⟩
  · intro h1 h2 h3
    simp only [noveltyScore]
    rw [if_pos ⟨h1, h2⟩, (novArtistLoop_ok_true _ _).mpr h3]
    norm_num
  · intro h
    have hnt : novArtistLoop (u.recent_artists.map pyLower) t.artists ≠ .ok true := by
      rw [Ne, novArtistLoop_ok_true]
      intro hall
      obtain ⟨a, ha, hna⟩ := List.any_eq_true.mp h
      have hx := List.all_eq_true.mp hall a ha
      rw [hx] at hna
      simp at hna
    simp only [noveltyScore]
    by_cases hg : t.artists ≠ [] ∧ u.recent_artists ≠ []
    · rw [if_pos hg]
      cases hres : novArtistLoop (u.recent_artists.map pyLower) t.artists with
      | error e => rfl
      | ok b =>
        cases b with
        | true => exact absurd hres hnt
        | false => norm_num
    · rw [if_neg hg]
      norm_num
  · intro h
    simp only [noveltyScore]
    rw [if_neg ?_]
    · norm_num
    · rintro ⟨h1, h2⟩
      rcases h with h | h
      · exact h1 h
      · exact h2 h

/-- C7 witness: novelty 100 for a dict-format artist absent from a
non-empty recent list; novelty 70 for the same name as a bare-string
entry (the scorer's exception fallback). -/
theorem novelty_score_cases_witness :
    noveltyScore tDictA recentB = 100 ∧ noveltyScore tStrA recentB = 70 :=
  ⟨(novelty_score_cases tDictA recentB).1 (by decide) (by decide) (by decide),
   (novelty_score_cases tStrA recentB).2.1 (by decide)⟩

/-- C7 counterexample: two tracks with no artist name in the recent list
yet novelty 70, not 100: a dict-format artist with an empty recent list
(the bonus is gated on a non-empty list), and a bare-string artist with
recent list `["B"]` (the scorer raises at `artist.get` and falls back to
70.0). -/
theorem novelty_counterexample :
    ((tDictA.artists.map Artist.leadName).all (fun nm =>
        !(emptyContext.recent_artists.map pyLower).contains (pyLower nm))) = true
    ∧ noveltyScore tDictA emptyContext ≠ 100
    ∧ noveltyScore tDictA emptyContext = 70
    ∧ ((tStrA.artists.map Artist.leadName).all (fun nm =>
        !(recentB.recent_artists.map pyLower).contains (pyLower nm))) = true
    ∧ noveltyScore tStrA recentB ≠ 100
    ∧ noveltyScore tStrA recentB = 70 := by
  have h1 : noveltyScore tDictA emptyContext = 70 := by
    simp [noveltyScore, emptyContext]
    norm_num
  have h2 : noveltyScore tStrA recentB = 70 := by
    simp [noveltyScore, tStrA, recentB, novArtistLoop]
  refine ⟨by decide, ?_, h1, by decide, ?_, h2⟩
  · rw [h1]
    norm_num
  · rw [h2]
    norm_num

/-- C9: the composite diversity score is monotone non-decreasing in the
unique-artist count, the tempo standard deviation, and the energy
standard deviation, at fixed positive playlist length. -/
theorem diversity_score_monotone (u u' n t t' e e' : ℚ) (hn : 0 < n)
    (hu : u ≤ u') (ht : t ≤ t') (he : e ≤ e') :
    diversityScoreFormula u n t e ≤ diversityScoreFormula u' n t' e' := by
  simp only [diversityScoreFormula]
  gcongr

/-- C9 witness: concrete monotone instance at playlist length 5. -/
theorem diversity_score_monotone_witness :
    diversityScoreFormula 1 5 0 0 ≤ diversityScoreFormula 2 5 1 1 :=
  diversity_score_monotone 1 2 5 0 1 0 1 (by norm_num) (by norm_num)
    (by norm_num) (by norm_num)

/-- C2 (amended): on an empty candidate list the pipeline does not raise,
but both the ranking stage and the diversity stage return error payloads
(`IndexError` text and `"No tracks provided"`), not an empty playlist
with zeroed metrics. -/
theorem empty_candidates_error (k : Nat) (mood : MoodData) (u : UserContext) :
    optimizeDiversityChecked [] k = .error "No tracks provided"
    ∧ rankTracksChecked [] mood u = .error "list index out of range" := by
  constructor
  · rfl
  · simp [rankTracksChecked, rankTracks]

/-- C2 counterexample: at the concrete empty input with `desired_count =
10` and a happy mood, both stages return error values instead of an empty
playlist with zeroed metrics. -/
theorem empty_candidates_counterexample :
    optimizeDiversityChecked [] 10 = .error "No tracks provided"
    ∧ rankTracksChecked [] moodHappy emptyContext = .error "list index out of range" := by
  constructor
  · rfl
  · simp [rankTracksChecked, rankTracks]

end MusicMood
